import Mathlib

/-!
Verification of the AVL-tree core in `src/AvlTree.cpp`.

The C++ class `AVL<T>` (instantiated at `int` by `main.cpp`) stores nodes
holding a key, a cached subtree height, and two child pointers.  We embed the
node graph as the inductive type `AVL.Tree`: a null pointer becomes `nil`, a
node becomes `node key height left right`.  Keys are `Int` (machine-`int`
overflow plays no role in any claim); cached heights are `Nat`.
All operations below are direct translations of the member functions of
`AVL<T>`; imperative loops are rendered as structural recursions that perform
the same sequence of reads and writes.
-/

namespace AVL

/-- A node graph: `nil` models a null `Node*`; `node k h l r` models a `Node`
with `key = k`, cached `height = h`, `left = l`, `right = r`. -/
inductive Tree where
  | nil : Tree
  | node (key : Int) (height : Nat) (left : Tree) (right : Tree) : Tree
deriving DecidableEq, Repr

/-- `AVL::height(Node*)` (line 120): `node ? node->height : 0` — the cached
height field, with 0 for a null pointer. -/
def height : Tree → Nat
  | .nil => 0
  | .node _ h _ _ => h

/-- The `key` field of a node; never read through a null pointer by the code
paths we model, defaulting to 0 on `nil`. -/
def keyOf : Tree → Int
  | .nil => 0
  | .node k _ _ _ => k

/-- The `left` field of a node (`nullptr` on `nil`). -/
def leftOf : Tree → Tree
  | .nil => .nil
  | .node _ _ l _ => l

/-- The `right` field of a node (`nullptr` on `nil`). -/
def rightOf : Tree → Tree
  | .nil => .nil
  | .node _ _ _ r => r

/-- `AVL::rightRotation` (lines 185-195): `new_root = root->left`,
`root->left = new_root->right`, `new_root->right = root`, then the two
heights are recomputed, old root first.  The code is only ever called with a
non-null left child; the other patterns return the input unchanged. -/
def rightRotation : Tree → Tree
  | .node k _ (.node lk _ ll lr) r =>
      let root' := Tree.node k (1 + max (height lr) (height r)) lr r
      Tree.node lk (1 + max (height ll) (height root')) ll root'
  | t => t

/-- `AVL::leftRotation` (lines 201-211), mirror image of `rightRotation`. -/
def leftRotation : Tree → Tree
  | .node k _ l (.node rk _ rl rr) =>
      let root' := Tree.node k (1 + max (height l) (height rl)) l rl
      Tree.node rk (1 + max (height root') (height rr)) root' rr
  | t => t

/-- `AVL::search` (lines 164-179): equal key returns the node, smaller root
key recurses right, otherwise left. -/
def search : Tree → Int → Option Tree
  | .nil, _ => none
  | .node k h l r, v =>
      if k = v then some (.node k h l r)
      else if k < v then search r v
      else search l v

/-- The rebalancing tail of `AVL::insert` (lines 236-254): computes
`balance = height(left) - height(right)` on the updated node and applies the
rotation case analysis driven by the inserted value `v`.
`h'` is the height recomputed at line 233. -/
def balanceInsert (k : Int) (h' : Nat) (l r : Tree) (v : Int) : Tree :=
  if 1 < (height l : Int) - (height r : Int) then
    if v < keyOf l then rightRotation (.node k h' l r)
    else rightRotation (.node k h' (leftRotation l) r)
  else if (height l : Int) - (height r : Int) < -1 then
    if keyOf r < v then leftRotation (.node k h' l r)
    else leftRotation (.node k h' l (rightRotation r))
  else .node k h' l r

/-- `AVL::insert` (lines 218-255): recurse by comparison (duplicates fall
through both guards), recompute the cached height, then rebalance. -/
def insert : Tree → Int → Tree
  | .nil, v => .node v 1 .nil .nil
  | .node k _ l r, v =>
      let l' := if v < k then insert l v else l
      let r' := if k < v then insert r v else r
      balanceInsert k (1 + max (height l') (height r')) l' r' v

/-- The successor splice of `AVL::remove` (lines 276-308, two-children case).
The C++ walks `right` down the left spine while `right->left` and
`right->left->left` exist, then either (left child absent) copies
`right->key` up and relinks `root->right = right->right`, or (left child
present, grandchild absent) copies `right->left->key` up and nulls
`right->left` — discarding any right child of that successor, and leaving
every cached height on the walked spine untouched.  Returns the key copied
into the deleted node together with the resulting right subtree. -/
def succSplice : Tree → Int × Tree
  | .nil => (0, .nil)
  | .node rk rh rl rr =>
      match rl with
      | .nil => (rk, rr)
      | .node lk lh ll lr =>
          match ll with
          | .nil => (lk, .node rk rh .nil rr)
          | .node _ _ _ _ =>
              let p := succSplice (.node lk lh ll lr)
              (p.1, .node rk rh p.2 rr)

/-- The rebalancing tail of `AVL::remove` (lines 311-338): on a non-null
node, recompute the cached height, compute the balance, and rotate.  Note the
guards at lines 323 and 330 compare the heights of the node's own children
(`height(root->left) >= height(root->right)` and its mirror). -/
def rebalanceAfterRemove : Tree → Tree
  | .nil => .nil
  | .node k _ l r =>
      if 1 < (height l : Int) - (height r : Int) then
        if height r ≤ height l then
          rightRotation (.node k (1 + max (height l) (height r)) l r)
        else rightRotation (.node k (1 + max (height l) (height r)) (leftRotation l) r)
      else if (height l : Int) - (height r : Int) < -1 then
        if height l ≤ height r then
          leftRotation (.node k (1 + max (height l) (height r)) l r)
        else leftRotation (.node k (1 + max (height l) (height r)) l (rightRotation r))
      else .node k (1 + max (height l) (height r)) l r

/-- `AVL::remove` (lines 262-339): recurse by comparison; at the matching
node splice out a leaf/one-child node directly, or use `succSplice` for the
two-children case; then rebalance the (possibly emptied) result. -/
def remove : Tree → Int → Tree
  | .nil, _ => .nil
  | .node k h l r, v =>
      let t1 : Tree :=
        if v < k then .node k h (remove l v) r
        else if k < v then .node k h l (remove r v)
        else
          match r with
          | .nil => l
          | .node rk rh rl rr =>
              match l with
              | .nil => .node rk rh rl rr
              | .node _ _ _ _ =>
                  let p := succSplice (.node rk rh rl rr)
                  .node p.1 h l p.2
      rebalanceAfterRemove t1

/-- The rebalancing tail of `remove` with the two double-rotation branches
removed: a violation always receives one single rotation.  Used to express
that the guards at lines 323 and 330 of the source can never be false. -/
def rebalanceAfterRemoveSingle : Tree → Tree
  | .nil => .nil
  | .node k _ l r =>
      if 1 < (height l : Int) - (height r : Int) then
        rightRotation (.node k (1 + max (height l) (height r)) l r)
      else if (height l : Int) - (height r : Int) < -1 then
        leftRotation (.node k (1 + max (height l) (height r)) l r)
      else .node k (1 + max (height l) (height r)) l r

/-- `remove` with its rebalancing tail replaced by
`rebalanceAfterRemoveSingle`; everything else is identical. -/
def removeOnlySingle : Tree → Int → Tree
  | .nil, _ => .nil
  | .node k h l r, v =>
      let t1 : Tree :=
        if v < k then .node k h (removeOnlySingle l v) r
        else if k < v then .node k h l (removeOnlySingle r v)
        else
          match r with
          | .nil => l
          | .node rk rh rl rr =>
              match l with
              | .nil => .node rk rh rl rr
              | .node _ _ _ _ =>
                  let p := succSplice (.node rk rh rl rr)
                  .node p.1 h l p.2
      rebalanceAfterRemoveSingle t1

/-- Modelled from the spec: the rebalancing step claim C2 describes for
`remove` — for a left-heavy violation a single right rotation when
`height(left.left) >= height(left.right)` and otherwise a left-then-right
double rotation, with the mirror choice driven by the right child's
grandchildren heights. -/
def rebalanceRemoveClaim : Tree → Tree
  | .nil => .nil
  | .node k _ l r =>
      if 1 < (height l : Int) - (height r : Int) then
        if height (rightOf l) ≤ height (leftOf l) then
          rightRotation (.node k (1 + max (height l) (height r)) l r)
        else rightRotation (.node k (1 + max (height l) (height r)) (leftRotation l) r)
      else if (height l : Int) - (height r : Int) < -1 then
        if height (leftOf r) ≤ height (rightOf r) then
          leftRotation (.node k (1 + max (height l) (height r)) l r)
        else leftRotation (.node k (1 + max (height l) (height r)) l (rightRotation r))
      else .node k (1 + max (height l) (height r)) l r

/-- Modelled from the spec: `remove` as claim C2 describes it, i.e. the
code's `remove` with its rebalancing tail replaced by
`rebalanceRemoveClaim`. -/
def removeClaim : Tree → Int → Tree
  | .nil, _ => .nil
  | .node k h l r, v =>
      let t1 : Tree :=
        if v < k then .node k h (removeClaim l v) r
        else if k < v then .node k h l (removeClaim r v)
        else
          match r with
          | .nil => l
          | .node rk rh rl rr =>
              match l with
              | .nil => .node rk rh rl rr
              | .node _ _ _ _ =>
                  let p := succSplice (.node rk rh rl rr)
                  .node p.1 h l p.2
      rebalanceRemoveClaim t1

/-- In-order key sequence of the node graph. -/
def keys : Tree → List Int
  | .nil => []
  | .node k _ l r => keys l ++ k :: keys r

/-- Height of the tree computed from its shape alone (cached fields
ignored); the height of an absent subtree is 0. -/
def realHeight : Tree → Nat
  | .nil => 0
  | .node _ _ l r => 1 + max (realHeight l) (realHeight r)

/-- BST ordering: every left-subtree key is below the node key and every
right-subtree key above it, recursively. -/
def orderedB : Tree → Bool
  | .nil => true
  | .node k _ l r =>
      (keys l).all (fun x => decide (x < k)) &&
      ((keys r).all (fun y => decide (k < y)) && (orderedB l && orderedB r))

/-- Cached-height correctness: every node's `height` field equals
`1 + max (height left) (height right)`, absent-subtree height 0. -/
def heightCorrectB : Tree → Bool
  | .nil => true
  | .node _ h l r =>
      (h == 1 + max (height l) (height r)) && (heightCorrectB l && heightCorrectB r)

/-- AVL balance on the cached heights:
`|height(left) - height(right)| <= 1` at every node. -/
def balancedB : Tree → Bool
  | .nil => true
  | .node _ _ l r =>
      (height l ≤ height r + 1 && height r ≤ height l + 1) && (balancedB l && balancedB r)

/-- AVL balance on the shape itself (cached fields ignored):
`|realHeight(left) - realHeight(right)| <= 1` at every node. -/
def balancedRealB : Tree → Bool
  | .nil => true
  | .node _ _ l r =>
      (realHeight l ≤ realHeight r + 1 && realHeight r ≤ realHeight l + 1) &&
      (balancedRealB l && balancedRealB r)

/-! ### The rendering subsystem

`std::string` is embedded as `List Char`; `stringstream << key` on an `int`
produces its decimal representation, embedded as `(toString k).data`. -/

/-- `AVL::cell_display` (lines 134-148): a string `value` and a `present`
flag; the no-arg constructor leaves `value` empty and `present` false. -/
structure CellD where
  value : List Char
  present : Bool
deriving DecidableEq, Repr

/-- The cell built for one slot of the traversal (lines 423-430): a null
pointer yields `cell_display()`, a node yields `cell_display(ss.str())` with
its key streamed into `ss`. -/
def cellOf : Tree → CellD
  | .nil => ⟨[], false⟩
  | .node k _ _ _ => ⟨(toString k).data, true⟩

/-- The slots of one level of the conceptually perfect tree, left to right:
level 0 is the root slot, and level `d+1` concatenates the level-`d` slots of
the two children, a null pointer contributing null children.  This is the
per-row content accumulated by the iterative traversal of
`generateDisplayGrid` (lines 359-407), which appends each slot to
`rows[depth]` on first visit and descends left before right, treating null
`current` as a slot whose children are again null. -/
def levelSlots : Tree → Nat → List Tree
  | t, 0 => [t]
  | t, d + 1 => levelSlots (leftOf t) d ++ levelSlots (rightOf t) d

/-- `AVL::generateDisplayGrid` (lines 345-435): empty tree yields the empty
grid; otherwise one row per depth `0 .. root->height - 1` (`max_depth` is the
cached root height, line 355), each row mapping its slots to cells. -/
def generateDisplayGrid : Tree → List (List CellD)
  | .nil => []
  | .node k h l r =>
      (List.range (height (.node k h l r))).map
        (fun d => (levelSlots (.node k h l r) d).map cellOf)

/-- The `cell_width` computation of `AVL::formatGrid` (lines 444-457): start
at 3, raise to any longer present value, then increment once if even. -/
def cellWidthOf (grid : List (List CellD)) : Nat :=
  let w := grid.foldl
    (fun acc row => row.foldl
      (fun a c => if c.present = true ∧ a < c.value.length then c.value.length else a) acc) 3
  if w % 2 = 0 then w + 1 else w

/-- One formatted cell of a value row (lines 494-516): a present value is
padded to `cw` characters, the longer half of an odd split going left for
even (left-children) columns and right for odd columns; an absent cell is
`cw` spaces. -/
def valueCell (cw : Nat) (c : Nat) (cell : CellD) : List Char :=
  if cell.present = true then
    let long := cw - cell.value.length
    let short := long / 2
    let long2 := long - short
    if c % 2 = 1 then
      List.replicate short ' ' ++ cell.value ++ List.replicate long2 ' '
    else
      List.replicate long2 ' ' ++ cell.value ++ List.replicate short ' '
  else List.replicate cw ' '

/-- One value row of `formatGrid` (lines 487-517): for each of the
`ec = row_elem_count` columns, the inter-cell padding (`left_pad` before the
first column, `2*left_pad + 1` otherwise) followed by the formatted cell. -/
def rowLine (cw pad ec : Nat) (gridRow : List CellD) : List Char :=
  (List.range ec).foldl
    (fun acc c =>
      acc ++ List.replicate (if c = 0 then pad else 2 * pad + 1) ' ' ++
        valueCell cw c (gridRow.getD c ⟨[], false⟩)) []

/-- One connector row (lines 535-552) drawn with the given `left_space` and
`right_space`: even columns get a `/` (or blank) slot, odd columns a `\`. -/
def connLine (ls rs ec : Nat) (gridRow : List CellD) : List Char :=
  (List.range ec).foldl
    (fun acc c =>
      if c % 2 = 0 then
        acc ++ List.replicate (if c = 0 then ls else 2 * ls + 1) ' ' ++
          [if (gridRow.getD c ⟨[], false⟩).present then '/' else ' '] ++
          List.replicate (rs + 1) ' '
      else
        acc ++ List.replicate rs ' ' ++
          [if (gridRow.getD c ⟨[], false⟩).present then '\\' else ' ']) []

/-- The main loop of `formatGrid` (lines 477-556), processing the grid rows
deepest first (`rows` here is the reversed grid): at step `r` emit the value
row with the current `left_pad` and element count, stop if this was the root
row (`row_elem_count == 1`), otherwise emit `space` connector rows whose
`left_space` grows from `space + 1` and `right_space` shrinks from
`space - 1`, and continue with `left_pad + space + 1` and half the elements. -/
def goFormat (cw : Nat) : List (List CellD) → Nat → Nat → Nat → List (List Char)
  | [], _, _, _ => []
  | gRow :: rest, r, pad, ec =>
      let space := 2 ^ r * (cw + 1) / 2 - 1
      let vRow := rowLine cw pad ec gRow
      if ec = 1 then [vRow]
      else
        vRow ::
          ((List.range space).map (fun i => connLine (space + 1 + i) (space - 1 - i) ec gRow) ++
            goFormat cw rest (r + 1) (pad + space + 1) (ec / 2))

/-- `AVL::formatGrid` (lines 442-562): compute the cell width, format the
rows from the deepest level up with initial `left_pad = 0` and
`row_elem_count = 2^(row_count - 1)`, then reverse so the root row is
first. -/
def formatGrid (grid : List (List CellD)) : List (List Char) :=
  (goFormat (cellWidthOf grid) (grid.reverse) 0 0 (2 ^ (grid.length - 1))).reverse

/-- The number of leading space characters of a row: the value of
`row.find_first_not_of(' ')` after the `npos`-to-`length` correction at
lines 579-583. -/
def countLeadingSpaces : List Char → Nat
  | [] => 0
  | c :: cs => if c = ' ' then countLeadingSpaces cs + 1 else 0

/-- The `min_space` fold of `AVL::trimRowsLeft` (lines 577-593), starting
from the first row's length. -/
def minSpace (rows : List (List Char)) (init : Nat) : Nat :=
  rows.foldl (fun m r => min m (countLeadingSpaces r)) init

/-- `AVL::trimRowsLeft` (lines 572-598): empty input unchanged; if any row
already starts with a non-space the function returns early leaving the rows
unchanged; otherwise every row loses `min_space` leading characters. -/
def trimRowsLeft (rows : List (List Char)) : List (List Char) :=
  match rows with
  | [] => []
  | front :: rest =>
      if (front :: rest).any (fun r => countLeadingSpaces r = 0) then front :: rest
      else (front :: rest).map (List.drop (minSpace (front :: rest) front.length))

/-- `AVL::display` (lines 604-624) as the list of lines written to `out`: a
tree of height 0 produces the literal `<empty tree>` line; otherwise the
grid is generated, formatted, trimmed, and each row is written preceded by
one space character. -/
def displayLines (t : Tree) : List (List Char) :=
  if height t = 0 then ["<empty tree>".data]
  else (trimRowsLeft (formatGrid (generateDisplayGrid t))).map (fun r => ' ' :: r)

/-- Modelled from the spec: the cell width as claim C8 words it — the
longest stringified key length among present cells, floored at 3, then
rounded up to the nearest odd number by incrementing once when even. -/
def specCellWidth (grid : List (List CellD)) : Nat :=
  let m := max 3
    (((grid.flatten.filter (fun c => c.present)).map (fun c => c.value.length)).foldr max 0)
  if m % 2 = 0 then m + 1 else m

/-- Spec-side helper: the length a cell contributes to the width maximum —
its value's length when present, 0 otherwise. -/
def presentLen (c : CellD) : Nat :=
  if c.present = true then c.value.length else 0

/-- Modelled from the spec: the node occupying slot `i` of level `d` of the
conceptually perfect tree, as claim C7 words it — slot `i` of level `d+1`
lies under the left child when `i < 2^d` and under the right child
otherwise, an absent subtree standing in for missing children. -/
def slotNode : Tree → Nat → Nat → Tree
  | t, 0, _ => t
  | t, d + 1, i =>
      if i < 2 ^ d then slotNode (leftOf t) d i
      else slotNode (rightOf t) d (i - 2 ^ d)

/-- One public mutating call on the tree owned by `AVL<int>`. -/
inductive Op where
  | ins (v : Int) : Op
  | del (v : Int) : Op
deriving DecidableEq, Repr

/-- Apply one public call: `AVL::insert(value)` or `AVL::remove(value)`. -/
def applyOp (t : Tree) : Op → Tree
  | .ins v => insert t v
  | .del v => remove t v

/-- The tree owned by an `AVL<int>` instance after a sequence of public
`insert`/`remove` calls, starting from the freshly constructed empty tree. -/
def applyOps (ops : List Op) : Tree :=
  ops.foldl applyOp .nil

/-! ### Helper lemmas -/

/-- Whenever the balance of a node exceeds 1 the guard
`height(root->left) >= height(root->right)` at line 323 holds (and mirror at
line 330), so the double-rotation branches of `remove` are dead code. -/
theorem rebalanceAfterRemove_eq_single (t : Tree) :
    rebalanceAfterRemove t = rebalanceAfterRemoveSingle t := by
  cases t with
  | nil => rfl
  | node k h l r =>
      simp only [rebalanceAfterRemove, rebalanceAfterRemoveSingle]
      split_ifs with h1 h2 h3 h4 <;> first | rfl | omega

end AVL

namespace AVL

/-! ### Claims C1, C3, C4: defects of `remove` at concrete inputs -/

/-- Claim C1 (code bug, evaluated at the failing input): build the tree by
inserting the distinct values 50, 25, 75, 10, 30, 60, 80, 70 and then remove
50.  Before the removal 70 is present and findable; after it, `search` for
70 — a value inserted and never removed — returns absent, because the
two-children deletion discards the successor's right subtree. -/
theorem c1_lost_subtree :
    (70 : Int) ∈ keys (applyOps [.ins 50, .ins 25, .ins 75, .ins 10, .ins 30, .ins 60, .ins 80, .ins 70]) ∧
    search (applyOps [.ins 50, .ins 25, .ins 75, .ins 10, .ins 30, .ins 60, .ins 80, .ins 70]) 70 ≠ none ∧
    (70 : Int) ≠ 50 ∧
    search (remove (applyOps [.ins 50, .ins 25, .ins 75, .ins 10, .ins 30, .ins 60, .ins 80, .ins 70]) 50) 70 = none := by
  decide

/-- Claim C3 (code bug, evaluated at the failing input): after inserting
20, 10, 30, 15 and removing 30, the tree is
`node 10 [nil, node 20 [node 15, nil]]`: the root has an absent left subtree
and a right subtree of height 2, violating `|height l - height r| <= 1` both
for recomputed and for cached heights. -/
theorem c3_balance_violated :
    remove (applyOps [.ins 20, .ins 10, .ins 30, .ins 15]) 30 =
      .node 10 3 .nil (.node 20 2 (.node 15 1 .nil .nil) .nil) ∧
    balancedRealB (remove (applyOps [.ins 20, .ins 10, .ins 30, .ins 15]) 30) = false ∧
    balancedB (remove (applyOps [.ins 20, .ins 10, .ins 30, .ins 15]) 30) = false := by
  decide

/-- Claim C4 (code bug, evaluated at the failing input): after inserting
20, 10, 30, 25 and removing 20, the node holding 30 is a leaf whose cached
height field is still 2, violating
`height == 1 + max(height left) (height right)`. -/
theorem c4_height_field_stale :
    remove (applyOps [.ins 20, .ins 10, .ins 30, .ins 25]) 20 =
      .node 25 3 (.node 10 1 .nil .nil) (.node 30 2 .nil .nil) ∧
    heightCorrectB (remove (applyOps [.ins 20, .ins 10, .ins 30, .ins 25]) 20) = false := by
  decide

/-! ### Claims C2 and C10: the rotation choice of `remove` -/

/-- Claim C2 (amended): during `remove`'s bottom-up rebalancing the guard
compares the heights of the unbalanced node's own children, not of the
grandchildren; since `balance > 1` already forces
`height left >= height right` (mirror for `balance < -1`), every violated
ancestor receives exactly one single rotation. -/
theorem c2_rotation_guard (k : Int) (h : Nat) (l r : Tree) :
    (1 < (height l : Int) - (height r : Int) →
      rebalanceAfterRemove (.node k h l r) =
        rightRotation (.node k (1 + max (height l) (height r)) l r)) ∧
    ((height l : Int) - (height r : Int) < -1 →
      rebalanceAfterRemove (.node k h l r) =
        leftRotation (.node k (1 + max (height l) (height r)) l r)) := by
  constructor
  · intro hb
    simp only [rebalanceAfterRemove]
    rw [if_pos hb, if_pos (by omega : height r ≤ height l)]
  · intro hb
    simp only [rebalanceAfterRemove]
    rw [if_neg (by omega : ¬ 1 < (height l : Int) - (height r : Int)), if_pos hb,
      if_pos (by omega : height l ≤ height r)]

/-- Witness for claim C2's amended theorem at a concrete unbalanced node. -/
theorem c2_rotation_guard_witness :
    rebalanceAfterRemove (.node 20 3 (.node 10 2 .nil (.node 15 1 .nil .nil)) .nil) =
      .node 10 3 .nil (.node 20 2 (.node 15 1 .nil .nil) .nil) :=
  ((c2_rotation_guard 20 3 (.node 10 2 .nil (.node 15 1 .nil .nil)) .nil).1
    (by decide)).trans (by decide)

/-- Claim C2 counterexample: after inserting 20, 10, 30, 15 and removing 30
the root becomes left-heavy with `height(left.left) = 0 < 1 =
height(left.right)`, so the claimed grandchildren-driven choice prescribes a
left-right double rotation (yielding the balanced tree rooted at 15), while
the code performs a single right rotation (yielding the tree rooted at
10). -/
theorem c2_counterexample :
    remove (applyOps [.ins 20, .ins 10, .ins 30, .ins 15]) 30 =
      .node 10 3 .nil (.node 20 2 (.node 15 1 .nil .nil) .nil) ∧
    removeClaim (applyOps [.ins 20, .ins 10, .ins 30, .ins 15]) 30 =
      .node 15 2 (.node 10 1 .nil .nil) (.node 20 1 .nil .nil) ∧
    remove (applyOps [.ins 20, .ins 10, .ins 30, .ins 15]) 30 ≠
      removeClaim (applyOps [.ins 20, .ins 10, .ins 30, .ins 15]) 30 := by
  decide

/-- Claim C10: in `remove`'s rebalancing the guards at lines 323 and 330
necessarily hold whenever the corresponding balance condition does, so the
two double-rotation branches are unreachable and `remove` coincides with the
variant that only ever performs a single rotation per ancestor. -/
theorem c10_remove_single_rotations_only : ∀ (t : Tree) (v : Int),
    remove t v = removeOnlySingle t v := by
  intro t
  induction t with
  | nil => intro v; rfl
  | node k h l r ihl ihr =>
      intro v
      simp only [remove, removeOnlySingle, ihl, ihr]
      exact rebalanceAfterRemove_eq_single _

/-! ### Claim C8: the cell width computation -/

theorem cellStep_eq_max (a : Nat) (c : CellD) :
    (if c.present = true ∧ a < c.value.length then c.value.length else a) =
      max a (presentLen c) := by
  unfold presentLen
  cases hp : c.present
  · simp [hp]
  · simp only [hp, true_and, if_true]
    split_ifs with h <;> omega

theorem foldl_maxRow (row : List CellD) : ∀ a : Nat,
    row.foldl (fun x c => max x (presentLen c)) a =
      max a (row.foldr (fun c m => max (presentLen c) m) 0) := by
  induction row with
  | nil => intro a; simp
  | cons c cs ih =>
      intro a
      simp only [List.foldl_cons, List.foldr_cons, ih, Nat.max_assoc]

theorem foldl_maxGrid (g : List (List CellD)) : ∀ a : Nat,
    g.foldl (fun acc row => row.foldl (fun x c => max x (presentLen c)) acc) a =
      max a (g.foldr (fun row m => max (row.foldr (fun c m2 => max (presentLen c) m2) 0) m) 0) := by
  induction g with
  | nil => intro a; simp
  | cons row rs ih =>
      intro a
      rw [List.foldl_cons, foldl_maxRow, ih, List.foldr_cons, Nat.max_assoc]

theorem presentLen_eq_of_true {c : CellD} (h : c.present = true) :
    presentLen c = c.value.length := by
  simp [presentLen, h]

theorem presentLen_eq_of_false {c : CellD} (h : c.present = false) :
    presentLen c = 0 := by
  simp [presentLen, h]

theorem rowMax_filter (row : List CellD) :
    ((row.filter (fun c => c.present)).map (fun c => c.value.length)).foldr max 0 =
      row.foldr (fun c m => max (presentLen c) m) 0 := by
  induction row with
  | nil => rfl
  | cons c cs ih =>
      cases hp : c.present
      · rw [List.filter_cons_of_neg (by simp [hp]), ih, List.foldr_cons,
          presentLen_eq_of_false hp, Nat.zero_max]
      · rw [List.filter_cons_of_pos (by simp [hp]), List.map_cons, List.foldr_cons,
          List.foldr_cons, ih, presentLen_eq_of_true hp]

theorem foldr_max_init (A : List Nat) : ∀ X : Nat, A.foldr max X = max (A.foldr max 0) X := by
  induction A with
  | nil => intro X; simp
  | cons a as ih =>
      intro X
      rw [List.foldr_cons, List.foldr_cons, ih X, Nat.max_assoc]

theorem flattenMax_eq (g : List (List CellD)) :
    ((g.flatten.filter (fun c => c.present)).map (fun c => c.value.length)).foldr max 0 =
      g.foldr (fun row m => max (row.foldr (fun c m2 => max (presentLen c) m2) 0) m) 0 := by
  induction g with
  | nil => rfl
  | cons row rs ih =>
      simp only [List.flatten_cons, List.filter_append, List.map_append, List.foldr_append,
        List.foldr_cons]
      rw [foldr_max_init, ih, rowMax_filter]

/-- Claim C8: for every tree, the cell width used to render it equals the
maximum stringified key length over the present cells of its display grid,
floored at 3 and then rounded up to the nearest odd number (incremented by
one when even). -/
theorem c8_cell_width (t : Tree) :
    cellWidthOf (generateDisplayGrid t) = specCellWidth (generateDisplayGrid t) := by
  unfold cellWidthOf specCellWidth
  simp only [cellStep_eq_max]
  rw [foldl_maxGrid, flattenMax_eq]

/-! ### The BST ordering invariant (claim C5) -/

theorem keys_node (k : Int) (h : Nat) (l r : Tree) :
    keys (.node k h l r) = keys l ++ k :: keys r := rfl

theorem orderedB_node_iff (k : Int) (h : Nat) (l r : Tree) :
    orderedB (.node k h l r) = true ↔
      ((∀ x ∈ keys l, x < k) ∧ (∀ y ∈ keys r, k < y) ∧
        orderedB l = true ∧ orderedB r = true) := by
  simp [orderedB, List.all_eq_true]

theorem orderedB_height_swap {k : Int} {h h2 : Nat} {l r : Tree}
    (ho : orderedB (.node k h l r) = true) : orderedB (.node k h2 l r) = true := by
  rw [orderedB_node_iff] at *
  exact ho

theorem keys_rightRotation (t : Tree) : keys (rightRotation t) = keys t := by
  cases t with
  | nil => rfl
  | node k h l r =>
      cases l with
      | nil => rfl
      | node lk lh ll lr => simp [rightRotation, keys, List.append_assoc]

theorem keys_leftRotation (t : Tree) : keys (leftRotation t) = keys t := by
  cases t with
  | nil => rfl
  | node k h l r =>
      cases r with
      | nil => rfl
      | node rk rh rl rr => simp [leftRotation, keys, List.append_assoc]

theorem orderedB_rightRotation {t : Tree} (ho : orderedB t = true) :
    orderedB (rightRotation t) = true := by
  cases t with
  | nil => exact ho
  | node k h l r =>
      cases l with
      | nil => exact ho
      | node lk lh ll lr =>
          rw [orderedB_node_iff] at ho
          obtain ⟨hl, hr, hol, hor⟩ := ho
          rw [orderedB_node_iff] at hol
          obtain ⟨hll, hlr, holl, holr⟩ := hol
          have hlk : lk < k := hl lk (by simp [keys])
          simp only [rightRotation, orderedB_node_iff, keys_node]
          refine ⟨hll, ?_, holl, ?_⟩
          · intro y hy
            simp only [List.mem_append, List.mem_cons] at hy
            rcases hy with hy | hy | hy
            · exact hlr y hy
            · omega
            · exact lt_trans hlk (hr y hy)
          · refine ⟨?_, hr, holr, hor⟩
            intro x hx
            exact hl x (by simp [keys, hx])

theorem orderedB_leftRotation {t : Tree} (ho : orderedB t = true) :
    orderedB (leftRotation t) = true := by
  cases t with
  | nil => exact ho
  | node k h l r =>
      cases r with
      | nil => exact ho
      | node rk rh rl rr =>
          rw [orderedB_node_iff] at ho
          obtain ⟨hl, hr, hol, hor⟩ := ho
          rw [orderedB_node_iff] at hor
          obtain ⟨hrl, hrr, horl, horr⟩ := hor
          have hrk : k < rk := hr rk (by simp [keys])
          simp only [leftRotation, orderedB_node_iff, keys_node]
          refine ⟨?_, hrr, ?_, horr⟩
          · intro x hx
            simp only [List.mem_append, List.mem_cons] at hx
            rcases hx with hx | hx | hx
            · exact lt_trans (hl x hx) hrk
            · omega
            · exact hrl x hx
          · refine ⟨hl, ?_, hol, horl⟩
            intro y hy
            exact hr y (by simp [keys, hy])

theorem orderedB_node_rotateLeftChild {k : Int} {h : Nat} {l r : Tree}
    (ho : orderedB (.node k h l r) = true) :
    orderedB (.node k h (leftRotation l) r) = true := by
  rw [orderedB_node_iff] at *
  obtain ⟨hl, hr, hol, hor⟩ := ho
  refine ⟨?_, hr, orderedB_leftRotation hol, hor⟩
  intro x hx
  rw [keys_leftRotation] at hx
  exact hl x hx

theorem orderedB_node_rotateRightChild {k : Int} {h : Nat} {l r : Tree}
    (ho : orderedB (.node k h l r) = true) :
    orderedB (.node k h l (rightRotation r)) = true := by
  rw [orderedB_node_iff] at *
  obtain ⟨hl, hr, hol, hor⟩ := ho
  refine ⟨hl, ?_, hol, orderedB_rightRotation hor⟩
  intro y hy
  rw [keys_rightRotation] at hy
  exact hr y hy

theorem keys_balanceInsert (k : Int) (h' : Nat) (l r : Tree) (v : Int) :
    keys (balanceInsert k h' l r v) = keys l ++ k :: keys r := by
  unfold balanceInsert
  split_ifs <;>
    simp [keys_rightRotation, keys_leftRotation, keys_node]

theorem orderedB_balanceInsert {k : Int} {h' : Nat} {l r : Tree} (v : Int)
    (ho : orderedB (.node k h' l r) = true) :
    orderedB (balanceInsert k h' l r v) = true := by
  unfold balanceInsert
  split_ifs
  · exact orderedB_rightRotation ho
  · exact orderedB_rightRotation (orderedB_node_rotateLeftChild ho)
  · exact orderedB_leftRotation ho
  · exact orderedB_leftRotation (orderedB_node_rotateRightChild ho)
  · exact ho

theorem insert_node (k : Int) (h : Nat) (l r : Tree) (v : Int) :
    insert (.node k h l r) v =
      balanceInsert k
        (1 + max (height (if v < k then insert l v else l))
          (height (if k < v then insert r v else r)))
        (if v < k then insert l v else l) (if k < v then insert r v else r) v := by
  simp only [insert]

theorem keys_insert_subset (t : Tree) (v : Int) :
    ∀ x ∈ keys (insert t v), x = v ∨ x ∈ keys t := by
  induction t with
  | nil => simp [insert, keys]
  | node k h l r ihl ihr =>
      intro x hx
      rcases lt_trichotomy v k with h1 | h1 | h1
      · rw [insert_node, if_pos h1, if_neg (by omega), keys_balanceInsert] at hx
        simp only [List.mem_append, List.mem_cons] at hx
        rcases hx with hx | hx | hx
        · rcases ihl x hx with hv | hv
          · exact Or.inl hv
          · exact Or.inr (by simp [keys_node, hv])
        · exact Or.inr (by simp [keys_node, hx])
        · exact Or.inr (by simp [keys_node, hx])
      · rw [insert_node, if_neg (by omega), if_neg (by omega), keys_balanceInsert] at hx
        exact Or.inr hx
      · rw [insert_node, if_neg (by omega), if_pos h1, keys_balanceInsert] at hx
        simp only [List.mem_append, List.mem_cons] at hx
        rcases hx with hx | hx | hx
        · exact Or.inr (by simp [keys_node, hx])
        · exact Or.inr (by simp [keys_node, hx])
        · rcases ihr x hx with hv | hv
          · exact Or.inl hv
          · exact Or.inr (by simp [keys_node, hv])

theorem orderedB_insert (t : Tree) (v : Int) (ho : orderedB t = true) :
    orderedB (insert t v) = true := by
  induction t with
  | nil => simp [insert, orderedB, keys]
  | node k h l r ihl ihr =>
      rw [orderedB_node_iff] at ho
      obtain ⟨hl, hr, hol, hor⟩ := ho
      rcases lt_trichotomy v k with h1 | h1 | h1
      · rw [insert_node, if_pos h1, if_neg (by omega)]
        apply orderedB_balanceInsert
        rw [orderedB_node_iff]
        refine ⟨?_, hr, ihl hol, hor⟩
        intro x hx
        rcases keys_insert_subset l v x hx with hv | hv
        · omega
        · exact hl x hv
      · rw [insert_node, if_neg (by omega), if_neg (by omega)]
        apply orderedB_balanceInsert
        rw [orderedB_node_iff]
        exact ⟨hl, hr, hol, hor⟩
      · rw [insert_node, if_neg (by omega), if_pos h1]
        apply orderedB_balanceInsert
        rw [orderedB_node_iff]
        refine ⟨hl, ?_, hol, ihr hor⟩
        intro y hy
        rcases keys_insert_subset r v y hy with hv | hv
        · omega
        · exact hr y hv

theorem mem_keys_node {x k : Int} {h : Nat} {l r : Tree} :
    x ∈ keys (.node k h l r) ↔ (x ∈ keys l ∨ x = k ∨ x ∈ keys r) := by
  simp [keys_node]

theorem keys_rebalanceAfterRemove (t : Tree) :
    keys (rebalanceAfterRemove t) = keys t := by
  cases t with
  | nil => rfl
  | node k h l r =>
      simp only [rebalanceAfterRemove]
      split_ifs <;>
        simp [keys_rightRotation, keys_leftRotation, keys_node]

theorem orderedB_rebalanceAfterRemove {t : Tree} (ho : orderedB t = true) :
    orderedB (rebalanceAfterRemove t) = true := by
  cases t with
  | nil => exact ho
  | node k h l r =>
      simp only [rebalanceAfterRemove]
      split_ifs
      · exact orderedB_rightRotation (orderedB_height_swap ho)
      · exact orderedB_rightRotation (orderedB_node_rotateLeftChild (orderedB_height_swap ho))
      · exact orderedB_leftRotation (orderedB_height_swap ho)
      · exact orderedB_leftRotation (orderedB_node_rotateRightChild (orderedB_height_swap ho))
      · exact orderedB_height_swap ho

theorem succSplice_eq_top (rk : Int) (rh : Nat) (rr : Tree) :
    succSplice (.node rk rh .nil rr) = (rk, rr) := rfl

theorem succSplice_eq_child (rk lk : Int) (rh lh : Nat) (lr rr : Tree) :
    succSplice (.node rk rh (.node lk lh .nil lr) rr) = (lk, .node rk rh .nil rr) := rfl

theorem succSplice_eq_deep (rk lk a : Int) (rh lh b : Nat) (c d lr rr : Tree) :
    succSplice (.node rk rh (.node lk lh (.node a b c d) lr) rr) =
      ((succSplice (.node lk lh (.node a b c d) lr)).1,
        .node rk rh (succSplice (.node lk lh (.node a b c d) lr)).2 rr) := rfl

theorem succSplice_keys (r : Tree) : r ≠ .nil →
    ((succSplice r).1 ∈ keys r ∧ ∀ x ∈ keys (succSplice r).2, x ∈ keys r) := by
  induction r with
  | nil => intro hne; exact absurd rfl hne
  | node rk rh rl rr ihl ihr =>
      intro _
      cases rl with
      | nil =>
          rw [succSplice_eq_top]
          refine ⟨by simp [mem_keys_node], ?_⟩
          intro x hx
          simp [mem_keys_node, hx]
      | node lk lh ll lr =>
          cases ll with
          | nil =>
              rw [succSplice_eq_child]
              refine ⟨by simp [mem_keys_node], ?_⟩
              intro x hx
              rw [mem_keys_node] at hx
              rcases hx with hx | hx | hx
              · simp [keys] at hx
              · simp [mem_keys_node, hx]
              · simp [mem_keys_node, hx]
          | node a b c d =>
              obtain ⟨ih1, ih2⟩ := ihl (by simp)
              rw [succSplice_eq_deep]
              refine ⟨by rw [mem_keys_node]; exact Or.inl ih1, ?_⟩
              intro x hx
              rw [mem_keys_node] at hx ⊢
              rcases hx with hx | hx | hx
              · exact Or.inl (ih2 x hx)
              · exact Or.inr (Or.inl hx)
              · exact Or.inr (Or.inr hx)

theorem succSplice_spec (r : Tree) : r ≠ .nil → orderedB r = true →
    ((succSplice r).1 ∈ keys r ∧
     (∀ x ∈ keys (succSplice r).2, x ∈ keys r) ∧
     (∀ x ∈ keys (succSplice r).2, (succSplice r).1 < x) ∧
     orderedB (succSplice r).2 = true) := by
  induction r with
  | nil => intro hne; exact absurd rfl hne
  | node rk rh rl rr ihl ihr =>
      intro _ ho
      rw [orderedB_node_iff] at ho
      obtain ⟨hl, hr, hol, hor⟩ := ho
      cases rl with
      | nil =>
          rw [succSplice_eq_top]
          refine ⟨by simp [mem_keys_node], ?_, ?_, hor⟩
          · intro x hx
            simp [mem_keys_node, hx]
          · exact hr
      | node lk lh ll lr =>
          cases ll with
          | nil =>
              have hlk : lk ∈ keys (Tree.node lk lh .nil lr) := by simp [mem_keys_node]
              have hlkrk : lk < rk := hl lk hlk
              rw [succSplice_eq_child]
              refine ⟨by simp [mem_keys_node, hlk], ?_, ?_, ?_⟩
              · intro x hx
                rw [mem_keys_node] at hx
                rcases hx with hx | hx | hx
                · simp [keys] at hx
                · simp [mem_keys_node, hx]
                · simp [mem_keys_node, hx]
              · intro x hx
                rw [mem_keys_node] at hx
                rcases hx with hx | hx | hx
                · simp [keys] at hx
                · omega
                · exact lt_trans hlkrk (hr x hx)
              · rw [orderedB_node_iff]
                exact ⟨by simp [keys], hr, rfl, hor⟩
          | node a b c d =>
              obtain ⟨ih1, ih2, ih3, ih4⟩ := ihl (by simp) hol
              have hprk : (succSplice (Tree.node lk lh (Tree.node a b c d) lr)).1 < rk :=
                hl _ ih1
              rw [succSplice_eq_deep]
              refine ⟨?_, ?_, ?_, ?_⟩
              · rw [mem_keys_node]
                exact Or.inl ih1
              · intro x hx
                rw [mem_keys_node] at hx ⊢
                rcases hx with hx | hx | hx
                · exact Or.inl (ih2 x hx)
                · exact Or.inr (Or.inl hx)
                · exact Or.inr (Or.inr hx)
              · intro x hx
                rw [mem_keys_node] at hx
                rcases hx with hx | hx | hx
                · exact ih3 x hx
                · omega
                · exact lt_trans hprk (hr x hx)
              · rw [orderedB_node_iff]
                refine ⟨?_, hr, ih4, hor⟩
                intro x hx
                exact hl x (ih2 x hx)

theorem remove_node (k : Int) (h : Nat) (l r : Tree) (v : Int) :
    remove (.node k h l r) v =
      rebalanceAfterRemove
        (if v < k then .node k h (remove l v) r
         else if k < v then .node k h l (remove r v)
         else
           match r with
           | .nil => l
           | .node rk rh rl rr =>
               match l with
               | .nil => .node rk rh rl rr
               | .node _ _ _ _ =>
                   .node (succSplice (.node rk rh rl rr)).1 h l
                     (succSplice (.node rk rh rl rr)).2) := by
  simp only [remove]

theorem keys_remove_subset (t : Tree) (v : Int) :
    ∀ x ∈ keys (remove t v), x ∈ keys t := by
  induction t with
  | nil => simp [remove, keys]
  | node k h l r ihl ihr =>
      intro x hx
      rw [remove_node, keys_rebalanceAfterRemove] at hx
      rcases lt_trichotomy v k with h1 | h1 | h1
      · rw [if_pos h1, mem_keys_node] at hx
        rw [mem_keys_node]
        rcases hx with hx | hx | hx
        · exact Or.inl (ihl x hx)
        · exact Or.inr (Or.inl hx)
        · exact Or.inr (Or.inr hx)
      · rw [if_neg (by omega), if_neg (by omega)] at hx
        rw [mem_keys_node]
        cases r with
        | nil => exact Or.inl hx
        | node rk rh rl rr =>
            cases l with
            | nil => exact Or.inr (Or.inr hx)
            | node a b c d =>
                obtain ⟨s1, s2⟩ := succSplice_keys (.node rk rh rl rr) (by simp)
                rw [mem_keys_node] at hx
                rcases hx with hx | hx | hx
                · exact Or.inl hx
                · subst hx; exact Or.inr (Or.inr s1)
                · exact Or.inr (Or.inr (s2 x hx))
      · rw [if_neg (by omega), if_pos h1, mem_keys_node] at hx
        rw [mem_keys_node]
        rcases hx with hx | hx | hx
        · exact Or.inl hx
        · exact Or.inr (Or.inl hx)
        · exact Or.inr (Or.inr (ihr x hx))

theorem orderedB_remove (t : Tree) (v : Int) (ho : orderedB t = true) :
    orderedB (remove t v) = true := by
  induction t with
  | nil => exact ho
  | node k h l r ihl ihr =>
      rw [orderedB_node_iff] at ho
      obtain ⟨hl, hr, hol, hor⟩ := ho
      rw [remove_node]
      apply orderedB_rebalanceAfterRemove
      rcases lt_trichotomy v k with h1 | h1 | h1
      · rw [if_pos h1, orderedB_node_iff]
        refine ⟨?_, hr, ihl hol, hor⟩
        intro x hx
        exact hl x (keys_remove_subset l v x hx)
      · rw [if_neg (by omega), if_neg (by omega)]
        cases r with
        | nil => exact hol
        | node rk rh rl rr =>
            cases l with
            | nil => rw [orderedB_node_iff] at hor ⊢; exact hor
            | node a b c d =>
                obtain ⟨s1, s2, s3, s4⟩ :=
                  succSplice_spec (.node rk rh rl rr) (by simp) hor
                rw [orderedB_node_iff]
                refine ⟨?_, s3, hol, s4⟩
                intro x hx
                exact lt_trans (hl x hx) (hr _ s1)
      · rw [if_neg (by omega), if_pos h1, orderedB_node_iff]
        refine ⟨hl, ?_, hol, ihr hor⟩
        intro y hy
        exact hr y (keys_remove_subset r v y hy)

theorem orderedB_applyOp (t : Tree) (op : Op) (ho : orderedB t = true) :
    orderedB (applyOp t op) = true := by
  cases op with
  | ins v => exact orderedB_insert t v ho
  | del v => exact orderedB_remove t v ho

theorem orderedB_foldl (ops : List Op) : ∀ t : Tree, orderedB t = true →
    orderedB (ops.foldl applyOp t) = true := by
  induction ops with
  | nil => intro t ht; exact ht
  | cons op ops ih =>
      intro t ht
      exact ih (applyOp t op) (orderedB_applyOp t op ht)

theorem pairwise_keys_of_orderedB (t : Tree) (ho : orderedB t = true) :
    (keys t).Pairwise (· < ·) := by
  induction t with
  | nil => exact List.Pairwise.nil
  | node k h l r ihl ihr =>
      rw [orderedB_node_iff] at ho
      obtain ⟨hl, hr, hol, hor⟩ := ho
      rw [keys_node, List.pairwise_append]
      refine ⟨ihl hol, ?_, ?_⟩
      · rw [List.pairwise_cons]
        exact ⟨hr, ihr hor⟩
      · intro x hx y hy
        rcases List.mem_cons.1 hy with hy | hy
        · subst hy; exact hl x hx
        · exact lt_trans (hl x hx) (hr y hy)

/-- Claim C5: after every sequence of public `insert` and `remove` calls
starting from the empty tree, every node's key is strictly greater than every
key in its left subtree and strictly less than every key in its right
subtree, and no two nodes share a key (the in-order key sequence is strictly
increasing). -/
theorem c5_bst_invariant (ops : List Op) :
    orderedB (applyOps ops) = true ∧ (keys (applyOps ops)).Pairwise (· < ·) := by
  have h : orderedB (applyOps ops) = true := orderedB_foldl ops .nil rfl
  exact ⟨h, pairwise_keys_of_orderedB _ h⟩

/-! ### Claim C6: idempotence of duplicate insert and absent remove -/

theorem heightCorrectB_node_iff (k : Int) (h : Nat) (l r : Tree) :
    heightCorrectB (.node k h l r) = true ↔
      (h = 1 + max (height l) (height r) ∧
        heightCorrectB l = true ∧ heightCorrectB r = true) := by
  simp [heightCorrectB, Bool.and_eq_true]

theorem balancedB_node_iff (k : Int) (h : Nat) (l r : Tree) :
    balancedB (.node k h l r) = true ↔
      ((height l ≤ height r + 1 ∧ height r ≤ height l + 1) ∧
        balancedB l = true ∧ balancedB r = true) := by
  simp [balancedB, Bool.and_eq_true]

theorem insert_mem_eq (t : Tree) (v : Int)
    (ho : orderedB t = true) (hh : heightCorrectB t = true) (hb : balancedB t = true)
    (hv : v ∈ keys t) : insert t v = t := by
  induction t with
  | nil => simp [keys] at hv
  | node k h l r ihl ihr =>
      rw [orderedB_node_iff] at ho
      obtain ⟨hl, hr, hol, hor⟩ := ho
      rw [heightCorrectB_node_iff] at hh
      obtain ⟨hhe, hhl, hhr⟩ := hh
      rw [balancedB_node_iff] at hb
      obtain ⟨⟨hb1, hb2⟩, hbl, hbr⟩ := hb
      rw [mem_keys_node] at hv
      rcases lt_trichotomy v k with h1 | h1 | h1
      · have hvl : v ∈ keys l := by
          rcases hv with hv | hv | hv
          · exact hv
          · omega
          · exact absurd (hr v hv) (by omega)
        rw [insert_node, if_pos h1, if_neg (by omega), ihl hol hhl hbl hvl]
        unfold balanceInsert
        rw [if_neg (by omega), if_neg (by omega), ← hhe]
      · rw [insert_node, if_neg (by omega), if_neg (by omega)]
        unfold balanceInsert
        rw [if_neg (by omega), if_neg (by omega), ← hhe]
      · have hvr : v ∈ keys r := by
          rcases hv with hv | hv | hv
          · exact absurd (hl v hv) (by omega)
          · omega
          · exact hv
        rw [insert_node, if_neg (by omega), if_pos h1, ihr hor hhr hbr hvr]
        unfold balanceInsert
        rw [if_neg (by omega), if_neg (by omega), ← hhe]

theorem remove_not_mem_eq (t : Tree) (v : Int)
    (hh : heightCorrectB t = true) (hb : balancedB t = true)
    (hv : v ∉ keys t) : remove t v = t := by
  induction t with
  | nil => rfl
  | node k h l r ihl ihr =>
      rw [heightCorrectB_node_iff] at hh
      obtain ⟨hhe, hhl, hhr⟩ := hh
      rw [balancedB_node_iff] at hb
      obtain ⟨⟨hb1, hb2⟩, hbl, hbr⟩ := hb
      have hvk : v ≠ k := by
        intro he
        exact hv (by rw [mem_keys_node]; exact Or.inr (Or.inl he))
      rcases lt_trichotomy v k with h1 | h1 | h1
      · have hvl : v ∉ keys l := fun hm => hv (by rw [mem_keys_node]; exact Or.inl hm)
        rw [remove_node, if_pos h1, ihl hhl hbl hvl]
        simp only [rebalanceAfterRemove]
        rw [if_neg (by omega), if_neg (by omega), ← hhe]
      · exact absurd h1 hvk
      · have hvr : v ∉ keys r := fun hm =>
          hv (by rw [mem_keys_node]; exact Or.inr (Or.inr hm))
        rw [remove_node, if_neg (by omega), if_pos h1, ihr hhr hbr hvr]
        simp only [rebalanceAfterRemove]
        rw [if_neg (by omega), if_neg (by omega), ← hhe]

/-- Claim C6 (amended): on a tree satisfying the BST, cached-height and
balance invariants, inserting an already-present value and removing an
absent value both leave the tree literally unchanged (hence same in-order
keys and same cached heights).  The restriction to invariant-satisfying
trees is forced: `remove` can leave reachable trees with stale cached
heights, and on those a duplicate insert rewrites the heights. -/
theorem c6_idempotence (t : Tree) (v : Int)
    (ho : orderedB t = true) (hh : heightCorrectB t = true) (hb : balancedB t = true) :
    (v ∈ keys t → insert t v = t) ∧ (v ∉ keys t → remove t v = t) :=
  ⟨fun hv => insert_mem_eq t v ho hh hb hv,
   fun hv => remove_not_mem_eq t v hh hb hv⟩

/-- Witness for claim C6's amended theorem on a concrete invariant-satisfying
tree: re-inserting 10 and removing the absent 99 both leave it unchanged. -/
theorem c6_idempotence_witness :
    insert (.node 20 2 (.node 10 1 .nil .nil) (.node 30 1 .nil .nil)) 10 =
      .node 20 2 (.node 10 1 .nil .nil) (.node 30 1 .nil .nil) ∧
    remove (.node 20 2 (.node 10 1 .nil .nil) (.node 30 1 .nil .nil)) 99 =
      .node 20 2 (.node 10 1 .nil .nil) (.node 30 1 .nil .nil) :=
  ⟨(c6_idempotence (.node 20 2 (.node 10 1 .nil .nil) (.node 30 1 .nil .nil)) 10
      (by decide) (by decide) (by decide)).1 (by decide),
   (c6_idempotence (.node 20 2 (.node 10 1 .nil .nil) (.node 30 1 .nil .nil)) 99
      (by decide) (by decide) (by decide)).2 (by decide)⟩

/-- Claim C6 counterexample: the tree reached by inserting 20, 10, 30, 25 and
then removing 20 still contains 30, but with a stale cached height left
behind by the removal; re-inserting the already-present 30 rewrites the
cached heights on its search path, so the tree is not left identical. -/
theorem c6_counterexample :
    (30 : Int) ∈ keys (remove (applyOps [.ins 20, .ins 10, .ins 30, .ins 25]) 20) ∧
    insert (remove (applyOps [.ins 20, .ins 10, .ins 30, .ins 25]) 20) 30 ≠
      remove (applyOps [.ins 20, .ins 10, .ins 30, .ins 25]) 20 := by
  decide

/-! ### Claim C7: the display grid -/

theorem levelSlots_eq_slotNode : ∀ (d : Nat) (t : Tree),
    levelSlots t d = (List.range (2 ^ d)).map (fun i => slotNode t d i) := by
  intro d
  induction d with
  | zero =>
      intro t
      rw [pow_zero, (rfl : List.range 1 = [0])]
      rfl
  | succ d ih =>
      intro t
      have h2 : 2 ^ (d + 1) = 2 ^ d + 2 ^ d := by
        rw [pow_succ, Nat.mul_two]
      simp only [levelSlots]
      rw [ih (leftOf t), ih (rightOf t), h2, List.range_add, List.map_append,
        List.map_map]
      congr 1
      · apply List.map_congr_left
        intro i hi
        rw [List.mem_range] at hi
        simp only [slotNode]
        rw [if_pos hi]
      · apply List.map_congr_left
        intro i hi
        rw [List.mem_range] at hi
        simp only [Function.comp_apply, slotNode]
        rw [if_neg (by omega), Nat.add_sub_cancel_left]

/-- Claim C7: for every non-empty tree the display grid has one row per
level `0 .. height - 1`; row `d` has exactly `2^d` cells, and cell `i` of
row `d` is marked present, carrying the stringified key of the node
occupying slot `i` of level `d`, exactly when such a node exists, and is
marked absent otherwise — including every slot lying below a shallower
leaf. -/
theorem c7_grid_layout (t : Tree) (hne : t ≠ .nil) :
    generateDisplayGrid t =
      (List.range (height t)).map
        (fun d => (List.range (2 ^ d)).map (fun i => cellOf (slotNode t d i))) := by
  cases t with
  | nil => exact absurd rfl hne
  | node k h l r =>
      simp only [generateDisplayGrid]
      apply List.map_congr_left
      intro d _
      rw [levelSlots_eq_slotNode d, List.map_map]
      rfl

/-- Witness for claim C7 at a concrete two-level tree. -/
theorem c7_grid_layout_witness :
    generateDisplayGrid (.node 5 2 (.node 3 1 .nil .nil) .nil) =
      (List.range (height (.node 5 2 (.node 3 1 .nil .nil) .nil))).map
        (fun d => (List.range (2 ^ d)).map
          (fun i => cellOf (slotNode (.node 5 2 (.node 3 1 .nil .nil) .nil) d i))) :=
  c7_grid_layout (.node 5 2 (.node 3 1 .nil .nil) .nil) (by decide)

/-! ### Claim C9: the rendered output -/

theorem countLeadingSpaces_le_length (r : List Char) :
    countLeadingSpaces r ≤ r.length := by
  induction r with
  | nil => simp [countLeadingSpaces]
  | cons c cs ih =>
      simp only [countLeadingSpaces, List.length_cons]
      split_ifs <;> omega

theorem countLeadingSpaces_drop (r : List Char) : ∀ n, n ≤ countLeadingSpaces r →
    countLeadingSpaces (r.drop n) = countLeadingSpaces r - n := by
  induction r with
  | nil =>
      intro n hn
      simp only [countLeadingSpaces, Nat.le_zero] at hn
      subst hn
      simp [countLeadingSpaces]
  | cons c cs ih =>
      intro n hn
      cases n with
      | zero => simp
      | succ m =>
          by_cases hc : c = ' '
          · simp only [countLeadingSpaces, if_pos hc] at hn ⊢
            rw [List.drop_succ_cons, ih m (by omega)]
            omega
          · simp only [countLeadingSpaces, if_neg hc] at hn
            omega

theorem minSpace_le_init (rows : List (List Char)) : ∀ x : Nat, minSpace rows x ≤ x := by
  unfold minSpace
  induction rows with
  | nil => intro x; exact le_refl x
  | cons a as ih =>
      intro x
      rw [List.foldl_cons]
      exact le_trans (ih (min x (countLeadingSpaces a))) (Nat.min_le_left _ _)

theorem minSpace_le (rows : List (List Char)) : ∀ (init : Nat) (r : List Char), r ∈ rows →
    minSpace rows init ≤ countLeadingSpaces r := by
  induction rows with
  | nil => intro init r hr; simp at hr
  | cons a as ih =>
      intro init r hr
      rcases List.mem_cons.1 hr with hr | hr
      · subst hr
        unfold minSpace
        rw [List.foldl_cons]
        exact le_trans (minSpace_le_init as _) (Nat.min_le_right _ _)
      · unfold minSpace
        rw [List.foldl_cons]
        exact ih _ r hr

theorem minSpace_cases (rows : List (List Char)) : ∀ init : Nat,
    minSpace rows init = init ∨
      ∃ r ∈ rows, minSpace rows init = countLeadingSpaces r := by
  induction rows with
  | nil => intro init; exact Or.inl rfl
  | cons a as ih =>
      intro init
      have hstep : minSpace (a :: as) init = minSpace as (min init (countLeadingSpaces a)) := by
        unfold minSpace
        rw [List.foldl_cons]
      rcases ih (min init (countLeadingSpaces a)) with h | ⟨r, hr, h⟩
      · by_cases hm : init ≤ countLeadingSpaces a
        · left
          rw [hstep, h, min_eq_left hm]
        · right
          refine ⟨a, List.mem_cons_self a as, ?_⟩
          rw [hstep, h, min_eq_right (by omega)]
      · right
        exact ⟨r, List.mem_cons_of_mem a hr, by rw [hstep, h]⟩

theorem trimRowsLeft_exists_flush (rows : List (List Char)) (hne : rows ≠ []) :
    ∃ r ∈ trimRowsLeft rows, countLeadingSpaces r = 0 := by
  cases rows with
  | nil => exact absurd rfl hne
  | cons front rest =>
      simp only [trimRowsLeft]
      split_ifs with hz
      · rw [List.any_eq_true] at hz
        obtain ⟨r, hr, hcr⟩ := hz
        exact ⟨r, hr, by simpa using hcr⟩
      · rcases minSpace_cases (front :: rest) front.length with hm | ⟨r0, hr0, hm⟩
        · have h1 : minSpace (front :: rest) front.length ≤ countLeadingSpaces front :=
            minSpace_le _ _ front (List.mem_cons_self front rest)
          have h2 : countLeadingSpaces front ≤ front.length :=
            countLeadingSpaces_le_length front
          refine ⟨front.drop (minSpace (front :: rest) front.length),
            List.mem_map_of_mem _ (List.mem_cons_self front rest), ?_⟩
          rw [countLeadingSpaces_drop front _ h1]
          omega
        · have h1 : minSpace (front :: rest) front.length ≤ countLeadingSpaces r0 := by omega
          refine ⟨r0.drop (minSpace (front :: rest) front.length),
            List.mem_map_of_mem _ hr0, ?_⟩
          rw [countLeadingSpaces_drop r0 _ h1]
          omega

theorem goFormat_cons (cw : Nat) (gRow : List CellD) (rest : List (List CellD))
    (r pad ec : Nat) :
    goFormat cw (gRow :: rest) r pad ec =
      if ec = 1 then [rowLine cw pad ec gRow]
      else rowLine cw pad ec gRow ::
        ((List.range (2 ^ r * (cw + 1) / 2 - 1)).map
          (fun i => connLine (2 ^ r * (cw + 1) / 2 - 1 + 1 + i)
            (2 ^ r * (cw + 1) / 2 - 1 - 1 - i) ec gRow) ++
          goFormat cw rest (r + 1) (pad + (2 ^ r * (cw + 1) / 2 - 1) + 1) (ec / 2)) := rfl

theorem goFormat_ne_nil (cw : Nat) (gRow : List CellD) (rest : List (List CellD))
    (r pad ec : Nat) : goFormat cw (gRow :: rest) r pad ec ≠ [] := by
  rw [goFormat_cons]
  split_ifs <;> simp

theorem goFormat_getLast (cw : Nat) : ∀ (rows : List (List CellD)) (r pad : Nat)
    (lastRow : List CellD), rows.getLast? = some lastRow →
    ∃ pad2, (goFormat cw rows r pad (2 ^ (rows.length - 1))).getLast? =
      some (rowLine cw pad2 1 lastRow) := by
  intro rows
  induction rows with
  | nil => intro r pad lastRow h; simp at h
  | cons gRow rest ih =>
      intro r pad lastRow hlast
      cases rest with
      | nil =>
          have hg : lastRow = gRow := by simpa using hlast.symm
          subst hg
          refine ⟨pad, ?_⟩
          simp [goFormat]
      | cons g2 rest2 =>
          rw [List.getLast?_cons_cons] at hlast
          have hne1 : (2:Nat) ^ (rest2.length + 1 + 1 - 1) ≠ 1 := by
            have := Nat.one_lt_two_pow (n := rest2.length + 1) (by omega)
            simp only [Nat.add_sub_cancel]
            omega
          have hec2 : (2:Nat) ^ (rest2.length + 1 + 1 - 1) / 2 =
              2 ^ ((g2 :: rest2).length - 1) := by
            simp only [Nat.add_sub_cancel, List.length_cons]
            rw [pow_succ, Nat.mul_div_cancel _ (by norm_num)]
          obtain ⟨pad2, hp⟩ :=
            ih (r + 1) (pad + (2 ^ r * (cw + 1) / 2 - 1) + 1) lastRow hlast
          refine ⟨pad2, ?_⟩
          show (goFormat cw (gRow :: g2 :: rest2) r pad
            (2 ^ ((gRow :: g2 :: rest2).length - 1))).getLast? = _
          simp only [List.length_cons]
          rw [goFormat_cons, if_neg hne1, hec2, ← List.cons_append,
            List.getLast?_append_of_ne_nil _ (goFormat_ne_nil cw g2 rest2 _ _ _)]
          exact hp

theorem formatGrid_head (grid : List (List CellD)) (row0 : List CellD)
    (h : grid.head? = some row0) :
    ∃ pad, (formatGrid grid).head? =
      some (rowLine (cellWidthOf grid) pad 1 row0) := by
  unfold formatGrid
  rw [List.head?_reverse]
  have hrev : grid.reverse.getLast? = some row0 := by
    rw [List.getLast?_reverse]
    exact h
  obtain ⟨pad2, hp⟩ := goFormat_getLast (cellWidthOf grid) grid.reverse 0 0 row0 hrev
  rw [List.length_reverse] at hp
  exact ⟨pad2, hp⟩

theorem formatGrid_ne_nil (grid : List (List CellD)) (h : grid ≠ []) :
    formatGrid grid ≠ [] := by
  unfold formatGrid
  cases hrev : grid.reverse with
  | nil =>
      exact absurd (by simpa using congrArg List.reverse hrev) h
  | cons a as =>
      simp only [ne_eq, List.reverse_eq_nil_iff]
      exact goFormat_ne_nil _ a as _ _ _

theorem generateDisplayGrid_head (t : Tree) (hne : height t ≠ 0) :
    t ≠ .nil ∧ (generateDisplayGrid t).head? = some [cellOf t] := by
  cases t with
  | nil => exact absurd rfl hne
  | node k h l r =>
      refine ⟨by simp, ?_⟩
      simp only [generateDisplayGrid]
      obtain ⟨m, hm⟩ := Nat.exists_eq_succ_of_ne_zero hne
      rw [hm, List.range_succ_eq_map]
      rfl

/-- Claim C9 (amended): for every non-empty tree the formatted rows come out
root line first (the first formatted line is the root row's line: the root's
cell rendered once after some left padding), and the rows are trimmed of the
leading whitespace they all share, so at least one trimmed row starts with
no space character; `display` then writes every line with one extra space in
front, so the written lines each begin with exactly one more space than the
trimmed rows. -/
theorem c9_render (t : Tree) (hne : height t ≠ 0) :
    displayLines t =
      (trimRowsLeft (formatGrid (generateDisplayGrid t))).map (fun row => ' ' :: row) ∧
    (∃ pad, (formatGrid (generateDisplayGrid t)).head? =
      some (rowLine (cellWidthOf (generateDisplayGrid t)) pad 1 [cellOf t])) ∧
    (∃ row ∈ trimRowsLeft (formatGrid (generateDisplayGrid t)),
      countLeadingSpaces row = 0) := by
  obtain ⟨htne, hhead⟩ := generateDisplayGrid_head t hne
  have hgridne : generateDisplayGrid t ≠ [] := by
    intro hcon
    rw [hcon] at hhead
    simp at hhead
  refine ⟨?_, ?_, ?_⟩
  · unfold displayLines
    rw [if_neg hne]
  · exact formatGrid_head _ _ hhead
  · exact trimRowsLeft_exists_flush _ (formatGrid_ne_nil _ hgridne)

/-- Witness for claim C9's amended theorem at the single-node tree holding 5. -/
theorem c9_render_witness :
    displayLines (.node 5 1 .nil .nil) =
      (trimRowsLeft (formatGrid (generateDisplayGrid (.node 5 1 .nil .nil)))).map
        (fun row => ' ' :: row) ∧
    (∃ pad, (formatGrid (generateDisplayGrid (.node 5 1 .nil .nil))).head? =
      some (rowLine (cellWidthOf (generateDisplayGrid (.node 5 1 .nil .nil))) pad 1
        [cellOf (.node 5 1 .nil .nil)])) ∧
    (∃ row ∈ trimRowsLeft (formatGrid (generateDisplayGrid (.node 5 1 .nil .nil))),
      countLeadingSpaces row = 0) :=
  c9_render (.node 5 1 .nil .nil) (by decide)

/-- Claim C9 counterexample: for the single-node tree holding 5 the entire
rendered output is the single line `" 5 "` — the trimmed row `"5 "` preceded
by the space `display` writes before every row — so no line of the final
rendered output begins with zero space characters. -/
theorem c9_counterexample :
    displayLines (.node 5 1 .nil .nil) = [[' ', '5', ' ']] ∧
    ¬ ∃ row ∈ displayLines (.node 5 1 .nil .nil), countLeadingSpaces row = 0 := by
  decide

end AVL

/-! ### Concrete evaluations of the embedding

Sanity anchors: the embedded operations, evaluated on small inputs, behave
exactly as hand-tracing the C++ does. -/

section ConcreteEvaluations
open AVL

example : applyOps [.ins 20, .ins 10, .ins 30, .ins 25] =
    .node 20 3 (.node 10 1 .nil .nil) (.node 30 2 (.node 25 1 .nil .nil) .nil) := by decide

example : remove (applyOps [.ins 20, .ins 10, .ins 30, .ins 25]) 20 =
    .node 25 3 (.node 10 1 .nil .nil) (.node 30 2 .nil .nil) := by decide

example : heightCorrectB (remove (applyOps [.ins 20, .ins 10, .ins 30, .ins 25]) 20) = false := by decide

example : remove (applyOps [.ins 20, .ins 10, .ins 30, .ins 15]) 30 =
    .node 10 3 .nil (.node 20 2 (.node 15 1 .nil .nil) .nil) := by decide

example : balancedRealB (remove (applyOps [.ins 20, .ins 10, .ins 30, .ins 15]) 30) = false := by decide

example : search (remove (applyOps [.ins 50, .ins 25, .ins 75, .ins 10, .ins 30, .ins 60, .ins 80, .ins 70]) 50) 70 = none := by decide

example : (70 : Int) ∈ keys (applyOps [.ins 50, .ins 25, .ins 75, .ins 10, .ins 30, .ins 60, .ins 80, .ins 70]) := by decide

example : displayLines (.node 5 1 .nil .nil) = [" 5 ".data] := by decide

example : displayLines (applyOps [.ins 2, .ins 1, .ins 3]) =
    ["   2 ".data, "  / \\".data, " 1   3 ".data] := by decide

example : generateDisplayGrid (applyOps [.ins 2, .ins 1, .ins 3]) =
    [[⟨['2'], true⟩], [⟨['1'], true⟩, ⟨['3'], true⟩]] := by decide

example : generateDisplayGrid (applyOps [.ins 2, .ins 1, .ins 3, .ins 0]) =
    [[⟨['2'], true⟩], [⟨['1'], true⟩, ⟨['3'], true⟩],
     [⟨['0'], true⟩, ⟨[], false⟩, ⟨[], false⟩, ⟨[], false⟩]] := by decide

end ConcreteEvaluations
